import Mathlib

/-!
# Source/Engine/CSG/Types.h

The header holds one declaration:

    namespace CSG
    {
        typedef ::BrushMode Mode;
    };

`BrushMode` is the enumeration declared in `Engine/Level/Actors/BrushMode.h`.
That header is outside the verified sources, so the enumeration enters the
development as a parameter: every definition and theorem below is stated for
an arbitrary type `BrushMode`, and the comparison of two enumeration values is
whatever decidable equality that type carries. Nothing is assumed about the
number or the names of the enumerators.

A `typedef` declares a synonym of an existing type and no new type. The
embedding is therefore a reducible type synonym.
-/

namespace CSG

/-- The alias `typedef ::BrushMode Mode;` of `Types.h`, line 10. -/
abbrev Mode (BrushMode : Type) : Type := BrushMode

namespace Mode

/-- Assignment of a `BrushMode` value to a location declared `CSG::Mode`.
Both names denote one type, so the store copies the value and has no
failure case. -/
def ofBrushMode {BrushMode : Type} (v : BrushMode) : Mode BrushMode := v

/-- Assignment of a `CSG::Mode` value to a location declared `BrushMode`. -/
def toBrushMode {BrushMode : Type} (m : Mode BrushMode) : BrushMode := m

/-- The comparison `a == b` of two values declared `CSG::Mode`. The alias
declares no operator of its own, so overload resolution selects the
comparison of the aliased enumeration. -/
def eq {BrushMode : Type} [DecidableEq BrushMode] (a b : Mode BrushMode) : Bool :=
  a == b

end Mode

end CSG

/-! ## Helper facts -/

theorem CSG.Mode.toBrushMode_ofBrushMode {BrushMode : Type} (v : BrushMode) :
    CSG.Mode.toBrushMode (CSG.Mode.ofBrushMode v) = v := rfl

theorem CSG.Mode.ofBrushMode_toBrushMode {BrushMode : Type} (m : CSG.Mode BrushMode) :
    CSG.Mode.ofBrushMode (CSG.Mode.toBrushMode m) = m := rfl

theorem CSG.Mode.toBrushMode_bijective (BrushMode : Type) :
    Function.Bijective (CSG.Mode.toBrushMode : CSG.Mode BrushMode → BrushMode) :=
  ⟨fun a b h => by simpa [CSG.Mode.toBrushMode] using h,
   fun v => ⟨CSG.Mode.ofBrushMode v, rfl⟩⟩

theorem CSG.Mode.ofBrushMode_bijective (BrushMode : Type) :
    Function.Bijective (CSG.Mode.ofBrushMode : BrushMode → CSG.Mode BrushMode) :=
  ⟨fun a b h => by simpa [CSG.Mode.ofBrushMode] using h,
   fun m => ⟨CSG.Mode.toBrushMode m, rfl⟩⟩

/-! ## Claims -/

/-- C1: `CSG::Mode` is the same type as `BrushMode`. For every result type
`R` and every function `f` taking a `BrushMode`, `f` applies to every value
of type `CSG::Mode`, and on every value the result is the same whether the
argument is typed `CSG::Mode` or `BrushMode`; transporting a value along any
proof of the type equality leaves it unchanged. -/
theorem CSG.Mode.type_identity (BrushMode : Type) :
    CSG.Mode BrushMode = BrushMode ∧
    (∀ (R : Type) (f : BrushMode → R) (m : CSG.Mode BrushMode),
      f m = f (CSG.Mode.toBrushMode m)) ∧
    (∀ (R : Type) (f : BrushMode → R) (v : BrushMode),
      f (CSG.Mode.ofBrushMode v) = f v) ∧
    (∀ (h : CSG.Mode BrushMode = BrushMode) (m : CSG.Mode BrushMode),
      cast h m = CSG.Mode.toBrushMode m) := by
  refine ⟨rfl, ?_, ?_, ?_⟩
  · intro R f m
    rfl
  · intro R f v
    rfl
  · intro h m
    rfl

/-- C2: assignment round trip. The two assignments are total functions; for
every `BrushMode` value `v`, storing `v` as a `CSG::Mode` and reading it back
as a `BrushMode` gives `v`, and for every `CSG::Mode` value `m`, passing
through `BrushMode` and back gives `m`. -/
theorem CSG.Mode.assign_round_trip (BrushMode : Type) :
    (∀ v : BrushMode, CSG.Mode.toBrushMode (CSG.Mode.ofBrushMode v) = v) ∧
    (∀ m : CSG.Mode BrushMode, CSG.Mode.ofBrushMode (CSG.Mode.toBrushMode m) = m) := by
  constructor
  · intro v
    exact CSG.Mode.toBrushMode_ofBrushMode v
  · intro m
    exact CSG.Mode.ofBrushMode_toBrushMode m

/-- C3: no values added or removed. Every value of `CSG::Mode` is a value of
`BrushMode` and every value of `BrushMode` is a value of `CSG::Mode`, and two
values compare equal as `CSG::Mode` exactly when they compare equal as
`BrushMode`. -/
theorem CSG.Mode.same_values (BrushMode : Type) [DecidableEq BrushMode] :
    (∀ m : CSG.Mode BrushMode, ∃ v : BrushMode, CSG.Mode.ofBrushMode v = m) ∧
    (∀ v : BrushMode, ∃ m : CSG.Mode BrushMode, CSG.Mode.toBrushMode m = v) ∧
    (∀ a b : CSG.Mode BrushMode,
      a = b ↔ CSG.Mode.toBrushMode a = CSG.Mode.toBrushMode b) ∧
    (∀ a b : CSG.Mode BrushMode,
      CSG.Mode.eq a b = (CSG.Mode.toBrushMode a == CSG.Mode.toBrushMode b)) ∧
    (∀ a b : CSG.Mode BrushMode, CSG.Mode.eq a b = true ↔ a = b) := by
  refine ⟨?_, ?_, ?_, ?_, ?_⟩
  · intro m
    exact (CSG.Mode.ofBrushMode_bijective BrushMode).2 m
  · intro v
    exact (CSG.Mode.toBrushMode_bijective BrushMode).2 v
  · intro a b
    exact ((CSG.Mode.toBrushMode_bijective BrushMode).1.eq_iff).symm
  · intro a b
    rfl
  · intro a b
    simp [CSG.Mode.eq]
